import Mathlib

/-!
Verification development for the `sstl` C++ template library
(`src/source/sstlshrp.hpp`, `src/source/sstleven.hpp`, `src/source/sstlfunc.hpp`).

The shared-pointer template `ss::SharedT` is embedded as an explicit state
machine: the heap of control blocks (`pointer_t` in the source) and the set of
live handles are association lists keyed by allocation ids.  Raw `class_t*`
pointer values are modelled as natural numbers with `0` standing for `NULL`,
and `release_t` function pointers are modelled by the inductive `RelFun`.
Each C++ member function of `SharedT` becomes a Lean function on the state.
Invocations of a control block's release function (from `~pointer_t`) are
recorded in an event log, and actual `delete` operations performed by the
default release function are recorded separately, so that lifecycle claims
about "the release function runs exactly once" become statements about logs.

The event/functor templates (`ss::EventT`, `ss::FunctorT`) are embedded as
lists of `(host, trampoline)` pairs with the exact loop structure of the
source; the `add` member's loop, which never advances its iterator, is given
an `Option`-valued embedding where `none` marks non-termination.
-/

set_option autoImplicit false

namespace SStl

/-- Model of a C++ `release_t` function-pointer value: `null` is the `NULL`
pointer, `defaultRel` is `&pointer_t::release`, and `custom i` is any other
function, identified by an arbitrary id. -/
inductive RelFun where
  | null
  | defaultRel
  | custom (id : Nat)
deriving DecidableEq, Repr

/-- Embedding of `SharedT::pointer_t` (the control block): reference count
`refs` (a C++ `volatile intptr_t`, modelled as `Int`), the shared raw pointer
`data` (`0` = `NULL`), and the stored deleter `deleteFun`. -/
structure PointerT where
  refs : Int
  data : Nat
  deleteFun : RelFun
deriving DecidableEq, Repr

/-- `pointer_t::pointer_t(class_t *ptr)`: refs 1, default deleter. -/
def PointerT.mkDefault (ptr : Nat) : PointerT :=
  { refs := 1, data := ptr, deleteFun := RelFun.defaultRel }

/-- `pointer_t::pointer_t(class_t *ptr, release_t funPtr)`: refs 1, and
`if (!funPtr) deleteFun = &pointer_t::release`. -/
def PointerT.mkWith (ptr : Nat) (funPtr : RelFun) : PointerT :=
  { refs := 1, data := ptr,
    deleteFun := if funPtr = RelFun.null then RelFun.defaultRel else funPtr }

/-- Association-list lookup by key (first match). -/
def alookup {α : Type} : List (Nat × α) → Nat → Option α
  | [], _ => none
  | (k, v) :: rest, n => if k = n then some v else alookup rest n

/-- Association-list update of the first entry with the given key. -/
def aset {α : Type} : List (Nat × α) → Nat → α → List (Nat × α)
  | [], _, _ => []
  | (k, v) :: rest, n, w =>
      if k = n then (k, w) :: rest else (k, v) :: aset rest n w

/-- Association-list removal of every entry with the given key. -/
def aremove {α : Type} : List (Nat × α) → Nat → List (Nat × α)
  | [], _ => []
  | (k, v) :: rest, n =>
      if k = n then aremove rest n else (k, v) :: aremove rest n

/-- The heap of live control blocks, keyed by allocation id. -/
abbrev Blocks := List (Nat × PointerT)

/-- The set of live `SharedT` handles: each handle id is mapped to its
`m_pointer` field — `none` models a `NULL` control-block pointer, `some b`
points at block `b`. -/
abbrev Handles := List (Nat × Option Nat)

/-- Number of live handles whose `m_pointer` designates block `b`. -/
def countRefs : Handles → Nat → Nat
  | [], _ => 0
  | q :: rest, b => (if q.2 = some b then 1 else 0) + countRefs rest b

/-- `pointer_t::release`, the default release function: `delete` on a
non-`NULL` pointer (recorded in the deletion log), no-op on `NULL`. -/
def defaultRelease (p : Nat) (deleted : List Nat) : List Nat :=
  if p = 0 then deleted else deleted ++ [p]

/-- Global state of the shared-pointer embedding: live control blocks and
handles with fresh-id counters, the log of `(*deleteFun)(data)` invocations
performed by `~pointer_t` (tagged with the block id), and the list of raw
pointers actually deleted by the default release function. -/
structure SState where
  blocks : Blocks
  nextB : Nat
  handles : Handles
  nextH : Nat
  log : List (Nat × RelFun × Nat)
  deleted : List Nat
deriving DecidableEq, Repr

/-- The empty initial state: no blocks, no handles, empty logs. -/
def initState : SState :=
  { blocks := [], nextB := 0, handles := [], nextH := 0, log := [], deleted := [] }

/-- `SharedT::retain()` executed by handle `h`: if `m_pointer` is `NULL`
(or the handle does not exist) nothing happens; otherwise the block's
reference count is incremented.  The dangling-block branch is unreachable
for states satisfying the well-formedness invariant. -/
def retain (s : SState) (h : Nat) : SState :=
  match alookup s.handles h with
  | some (some b) =>
      match alookup s.blocks b with
      | some pt => { s with blocks := aset s.blocks b { pt with refs := pt.refs + 1 } }
      | none => s
  | _ => s

/-- `SharedT::release()` executed by handle `h`: with a `NULL` `m_pointer`
it returns 0 doing nothing; otherwise it decrements the count, and when the
post-decrement value is `≤ 0` it deletes the control block — running
`~pointer_t`, which invokes `(*deleteFun)(data)` (logged, and performing the
default deletion when `deleteFun` is the default) — and in all cases nulls
the handle's own `m_pointer`.  The dangling-block branch is unreachable for
well-formed states. -/
def releaseOp (s : SState) (h : Nat) : SState :=
  match alookup s.handles h with
  | some (some b) =>
      match alookup s.blocks b with
      | some pt =>
          if pt.refs - 1 ≤ 0 then
            { s with
                blocks := aremove s.blocks b,
                handles := aset s.handles h none,
                log := s.log ++ [(b, pt.deleteFun, pt.data)],
                deleted :=
                  if pt.deleteFun = RelFun.defaultRel then
                    defaultRelease pt.data s.deleted
                  else s.deleted }
          else
            { s with
                blocks := aset s.blocks b { pt with refs := pt.refs - 1 },
                handles := aset s.handles h none }
      | none => { s with handles := aset s.handles h none }
  | _ => s

/-- `SharedT::SharedT()`: a fresh handle with `m_pointer = NULL`. -/
def ctorDefault (s : SState) : SState :=
  { s with handles := s.handles ++ [(s.nextH, none)], nextH := s.nextH + 1 }

/-- `SharedT::SharedT(class_t *ptr)`: allocates `new pointer_t(ptr)` and a
fresh handle pointing at it. -/
def ctorPtr (s : SState) (ptr : Nat) : SState :=
  { s with
      blocks := s.blocks ++ [(s.nextB, PointerT.mkDefault ptr)],
      nextB := s.nextB + 1,
      handles := s.handles ++ [(s.nextH, some s.nextB)],
      nextH := s.nextH + 1 }

set_option linter.unusedVariables false in
/-- `SharedT::SharedT(class_t *ptr, release_t destructor)` as written in the
source: the mem-initializer is `m_pointer(new pointer_t(ptr), destructor)`,
so only `ptr` reaches the `pointer_t` constructor and `destructor` is
discarded (as a two-expression initializer of a scalar member it does not
even compile when instantiated); the charitable executable reading allocates
`new pointer_t(ptr)` with the default deleter. -/
def ctorPtrFun (s : SState) (ptr : Nat) (fn : RelFun) : SState :=
  ctorPtr s ptr

/-- `SharedT::SharedT(const SharedT &other)`: copies `other.m_pointer` into
a fresh handle and calls `retain()` on it.  Copying from a non-live handle
is undefined behaviour in C++ and modelled as a no-op. -/
def ctorCopy (s : SState) (src : Nat) : SState :=
  match alookup s.handles src with
  | some mp =>
      retain
        { s with handles := s.handles ++ [(s.nextH, mp)], nextH := s.nextH + 1 }
        s.nextH
  | none => s

/-- `SharedT::~SharedT()` on handle `h`: runs `release()` and ends the
handle's lifetime.  Destroying a non-live handle is modelled as a no-op. -/
def dtor (s : SState) (h : Nat) : SState :=
  match alookup s.handles h with
  | some _ =>
      let s1 := releaseOp s h
      { s1 with handles := aremove s1.handles h }
  | none => s

/-- `SharedT::data()`: `m_pointer ? m_pointer->data : NULL`. -/
def dataOf (s : SState) (h : Nat) : Nat :=
  match alookup s.handles h with
  | some (some b) =>
      match alookup s.blocks b with
      | some pt => pt.data
      | none => 0
  | _ => 0

/-- `SharedT::shares()`: `m_pointer ? m_pointer->refs : 0`. -/
def sharesOf (s : SState) (h : Nat) : Int :=
  match alookup s.handles h with
  | some (some b) =>
      match alookup s.blocks b with
      | some pt => pt.refs
      | none => 0
  | _ => 0

/-- `SharedT::operator bool()`: `data() != NULL`. -/
def toBool (s : SState) (h : Nat) : Bool :=
  dataOf s h ≠ 0

/-- `SharedT::assign(const SharedT &other)`: guarded no-op when both handles
already reference the identical control block, otherwise `release()`, copy
of `other.m_pointer`, `retain()`. -/
def assignH (s : SState) (dst src : Nat) : SState :=
  match alookup s.handles dst, alookup s.handles src with
  | some mpD, some mpS =>
      if mpD = mpS then s
      else
        let s1 := releaseOp s dst
        retain { s1 with handles := aset s1.handles dst mpS } dst
  | _, _ => s

/-- `SharedT::assign(class_t *ptr, release_t destructor)`: no-op when
`ptr == data()`, otherwise `release()` followed by allocation of
`new pointer_t(ptr, destructor)`. -/
def assignPF (s : SState) (h : Nat) (ptr : Nat) (fn : RelFun) : SState :=
  match alookup s.handles h with
  | some _ =>
      if ptr = dataOf s h then s
      else
        let s1 := releaseOp s h
        { s1 with
            blocks := s1.blocks ++ [(s1.nextB, PointerT.mkWith ptr fn)],
            nextB := s1.nextB + 1,
            handles := aset s1.handles h (some s1.nextB) }
  | none => s

/-- `SharedT::operator=(const SharedT &other)`: `return assign(other)`. -/
def opAssignH (s : SState) (dst src : Nat) : SState :=
  assignH s dst src

/-- `SharedT::operator=(class_t *ptr)`:
`return assign(ptr, &pointer_t::release)`. -/
def opAssignP (s : SState) (h : Nat) (ptr : Nat) : SState :=
  assignPF s h ptr RelFun.defaultRel

/-- One operation of the `SharedT` API, the alphabet of traces over which
the lifecycle claims are stated. -/
inductive Op where
  | ctorDefault
  | ctorPtr (ptr : Nat)
  | ctorPtrFun (ptr : Nat) (fn : RelFun)
  | ctorCopy (src : Nat)
  | dtor (h : Nat)
  | assignH (dst src : Nat)
  | assignPF (h ptr : Nat) (fn : RelFun)
  | opAssignH (dst src : Nat)
  | opAssignP (h ptr : Nat)
deriving DecidableEq, Repr

/-- Small-step interpreter dispatching one `Op` to its embedded member
function. -/
def step (s : SState) : Op → SState
  | Op.ctorDefault => ctorDefault s
  | Op.ctorPtr ptr => ctorPtr s ptr
  | Op.ctorPtrFun ptr fn => ctorPtrFun s ptr fn
  | Op.ctorCopy src => ctorCopy s src
  | Op.dtor h => dtor s h
  | Op.assignH dst src => assignH s dst src
  | Op.assignPF h ptr fn => assignPF s h ptr fn
  | Op.opAssignH dst src => opAssignH s dst src
  | Op.opAssignP h ptr => opAssignP s h ptr

/-- Runs a trace of operations from the empty initial state. -/
def run (ops : List Op) : SState :=
  ops.foldl step initState

/-! ### Association-list lemmas -/

@[simp] theorem alookup_nil {α : Type} (n : Nat) :
    alookup ([] : List (Nat × α)) n = none := rfl

@[simp] theorem alookup_cons {α : Type} (k : Nat) (v : α) (rest : List (Nat × α)) (n : Nat) :
    alookup ((k, v) :: rest) n = if k = n then some v else alookup rest n := rfl

theorem mem_keys_of_alookup {α : Type} {l : List (Nat × α)} {n : Nat} {v : α}
    (h : alookup l n = some v) : n ∈ l.map Prod.fst := by
  induction l with
  | nil => simp [alookup] at h
  | cons q rest ih =>
      obtain ⟨k, w⟩ := q
      by_cases hk : k = n
      · subst hk; simp
      · simp [alookup, hk] at h
        simpa using Or.inr (ih h)

theorem mem_of_alookup {α : Type} {l : List (Nat × α)} {n : Nat} {v : α}
    (h : alookup l n = some v) : (n, v) ∈ l := by
  induction l with
  | nil => simp [alookup] at h
  | cons q rest ih =>
      obtain ⟨k, w⟩ := q
      by_cases hk : k = n
      · subst hk
        simp [alookup] at h
        simp [h]
      · simp [alookup, hk] at h
        exact List.mem_cons_of_mem _ (ih h)

theorem alookup_eq_none {α : Type} {l : List (Nat × α)} {n : Nat}
    (h : n ∉ l.map Prod.fst) : alookup l n = none := by
  induction l with
  | nil => rfl
  | cons q rest ih =>
      obtain ⟨k, w⟩ := q
      simp only [List.map_cons, List.mem_cons, not_or] at h
      have hk : ¬k = n := fun he => h.1 he.symm
      simp [alookup, hk, ih h.2]

theorem alookup_of_mem_nodup {α : Type} {l : List (Nat × α)} {n : Nat} {v : α}
    (hm : (n, v) ∈ l) (hnd : (l.map Prod.fst).Nodup) : alookup l n = some v := by
  induction l with
  | nil => simp at hm
  | cons q rest ih =>
      obtain ⟨k, w⟩ := q
      simp only [List.map_cons, List.nodup_cons] at hnd
      rcases List.mem_cons.mp hm with hq | hq
      · injection hq with h1 h2
        subst h1; subst h2
        simp [alookup]
      · have hkn : k ≠ n := by
          intro he
          subst he
          exact hnd.1 (List.mem_map_of_mem Prod.fst hq)
        simp [alookup, hkn, ih hq hnd.2]

theorem alookup_append_some {α : Type} {l : List (Nat × α)} (l2 : List (Nat × α))
    {n : Nat} {v : α} (h : alookup l n = some v) : alookup (l ++ l2) n = some v := by
  induction l with
  | nil => simp [alookup] at h
  | cons q rest ih =>
      obtain ⟨k, w⟩ := q
      by_cases hk : k = n <;> simp_all [alookup]

theorem alookup_append_none {α : Type} {l : List (Nat × α)} (l2 : List (Nat × α))
    {n : Nat} (h : alookup l n = none) : alookup (l ++ l2) n = alookup l2 n := by
  induction l with
  | nil => rfl
  | cons q rest ih =>
      obtain ⟨k, w⟩ := q
      by_cases hk : k = n <;> simp_all [alookup]

@[simp] theorem map_fst_aset {α : Type} (l : List (Nat × α)) (n : Nat) (w : α) :
    (aset l n w).map Prod.fst = l.map Prod.fst := by
  induction l with
  | nil => rfl
  | cons q rest ih =>
      obtain ⟨k, v⟩ := q
      by_cases hk : k = n <;> simp [aset, hk, ih]

theorem alookup_aset_eq {α : Type} (l : List (Nat × α)) (n : Nat) (w : α) :
    alookup (aset l n w) n = (alookup l n).map (fun _ => w) := by
  induction l with
  | nil => rfl
  | cons q rest ih =>
      obtain ⟨k, v⟩ := q
      by_cases hk : k = n <;> simp [aset, hk, ih]

theorem alookup_aset_ne {α : Type} (l : List (Nat × α)) {n m : Nat} (w : α)
    (h : m ≠ n) : alookup (aset l n w) m = alookup l m := by
  induction l with
  | nil => rfl
  | cons q rest ih =>
      obtain ⟨k, v⟩ := q
      have hnm : ¬n = m := fun he => h he.symm
      by_cases hk : k = n
      · have hkm : ¬k = m := fun he => h (he.symm.trans hk)
        simp [aset, hk, alookup, hkm, hnm]
      · by_cases hm : k = m <;> simp [aset, hk, alookup, hm, hnm, h, ih]

theorem mem_aset {α : Type} {l : List (Nat × α)} {n : Nat} {w : α} {p : Nat × α}
    (h : p ∈ aset l n w) : p ∈ l ∨ (p = (n, w) ∧ n ∈ l.map Prod.fst) := by
  induction l with
  | nil => simp [aset] at h
  | cons q rest ih =>
      obtain ⟨k, v⟩ := q
      by_cases hk : k = n
      · subst hk
        simp [aset] at h
        rcases h with h | h
        · exact Or.inr ⟨h, by simp⟩
        · exact Or.inl (List.mem_cons_of_mem _ h)
      · simp [aset, hk] at h
        rcases h with h | h
        · exact Or.inl (by simp [h])
        · rcases ih h with h2 | h2
          · exact Or.inl (List.mem_cons_of_mem _ h2)
          · exact Or.inr ⟨h2.1, by simp [h2.2]⟩

theorem aremove_sublist {α : Type} (l : List (Nat × α)) (n : Nat) :
    (aremove l n).Sublist l := by
  induction l with
  | nil => simp [aremove]
  | cons q rest ih =>
      obtain ⟨k, v⟩ := q
      by_cases hk : k = n
      · simpa [aremove, hk] using ih.cons (k, v)
      · simpa [aremove, hk] using ih.cons₂ (k, v)

theorem mem_aremove {α : Type} {l : List (Nat × α)} {n : Nat} {p : Nat × α}
    (h : p ∈ aremove l n) : p ∈ l :=
  (aremove_sublist l n).mem h

theorem map_fst_aremove_sublist {α : Type} (l : List (Nat × α)) (n : Nat) :
    ((aremove l n).map Prod.fst).Sublist (l.map Prod.fst) :=
  (aremove_sublist l n).map Prod.fst

theorem nodup_aremove {α : Type} {l : List (Nat × α)} (n : Nat)
    (h : (l.map Prod.fst).Nodup) : ((aremove l n).map Prod.fst).Nodup :=
  (map_fst_aremove_sublist l n).nodup h

theorem alookup_aremove_self {α : Type} (l : List (Nat × α)) (n : Nat) :
    alookup (aremove l n) n = none := by
  induction l with
  | nil => rfl
  | cons q rest ih =>
      obtain ⟨k, v⟩ := q
      by_cases hk : k = n <;> simp [aremove, hk, ih]

theorem alookup_aremove_ne {α : Type} (l : List (Nat × α)) {n m : Nat}
    (h : m ≠ n) : alookup (aremove l n) m = alookup l m := by
  induction l with
  | nil => rfl
  | cons q rest ih =>
      obtain ⟨k, v⟩ := q
      have hnm : ¬n = m := fun he => h he.symm
      by_cases hk : k = n
      · simp [aremove, hk, alookup, hnm, ih]
      · by_cases hm : k = m <;> simp [aremove, hk, alookup, hm, hnm, h, ih]

theorem aremove_of_not_mem {α : Type} {l : List (Nat × α)} {n : Nat}
    (h : n ∉ l.map Prod.fst) : aremove l n = l := by
  induction l with
  | nil => rfl
  | cons q rest ih =>
      obtain ⟨k, v⟩ := q
      simp only [List.map_cons, List.mem_cons, not_or] at h
      have hk : ¬k = n := fun he => h.1 he.symm
      simp [aremove, hk, ih h.2]

/-! ### Reference-count lemmas -/

@[simp] theorem countRefs_nil (b : Nat) : countRefs [] b = 0 := rfl

@[simp] theorem countRefs_cons (q : Nat × Option Nat) (rest : Handles) (b : Nat) :
    countRefs (q :: rest) b = (if q.2 = some b then 1 else 0) + countRefs rest b := rfl

theorem countRefs_append (l1 l2 : Handles) (b : Nat) :
    countRefs (l1 ++ l2) b = countRefs l1 b + countRefs l2 b := by
  induction l1 with
  | nil => simp
  | cons q rest ih => simp [ih]; omega

theorem countRefs_eq_zero {l : Handles} {b : Nat}
    (h : ∀ p ∈ l, p.2 ≠ some b) : countRefs l b = 0 := by
  induction l with
  | nil => rfl
  | cons q rest ih =>
      have h1 : q.2 ≠ some b := h q (List.mem_cons_self q rest)
      have h2 := ih (fun p hp => h p (List.mem_cons_of_mem q hp))
      simp [h1, h2]

theorem countRefs_pos_of_mem {l : Handles} {p : Nat × Option Nat} {b : Nat}
    (hm : p ∈ l) (hb : p.2 = some b) : 0 < countRefs l b := by
  induction l with
  | nil => simp at hm
  | cons q rest ih =>
      rcases List.mem_cons.mp hm with hq | hq
      · subst hq; simp [hb]
      · have := ih hq
        simp; omega

theorem countRefs_aset {l : Handles} {h : Nat} {mp : Option Nat} (mp2 : Option Nat) (b : Nat)
    (hl : alookup l h = some mp) :
    countRefs (aset l h mp2) b + (if mp = some b then 1 else 0)
      = countRefs l b + (if mp2 = some b then 1 else 0) := by
  induction l with
  | nil => simp [alookup] at hl
  | cons q rest ih =>
      obtain ⟨k, v⟩ := q
      by_cases hk : k = h
      · subst hk
        simp [alookup] at hl
        subst hl
        simp [aset]
        omega
      · simp [alookup, hk] at hl
        have := ih hl
        simp [aset, hk]
        omega

theorem countRefs_aremove {l : Handles} {h : Nat} {mp : Option Nat} (b : Nat)
    (hl : alookup l h = some mp) (hnd : (l.map Prod.fst).Nodup) :
    countRefs (aremove l h) b + (if mp = some b then 1 else 0) = countRefs l b := by
  induction l with
  | nil => simp [alookup] at hl
  | cons q rest ih =>
      obtain ⟨k, v⟩ := q
      simp at hnd
      by_cases hk : k = h
      · subst hk
        simp [alookup] at hl
        subst hl
        have hrest : k ∉ rest.map Prod.fst := by
          intro hmem
          simp at hmem
          obtain ⟨w, hw⟩ := hmem
          exact hnd.1 w hw
        simp [aremove, aremove_of_not_mem hrest]
        omega
      · simp [alookup, hk] at hl
        have := ih hl hnd.2
        simp [aremove, hk]
        omega

theorem countRefs_eq_length {l : Handles} {b : Nat}
    (h : ∀ p ∈ l, p.2 = some b) : countRefs l b = l.length := by
  induction l with
  | nil => rfl
  | cons q rest ih =>
      have h1 : q.2 = some b := h q (List.mem_cons_self q rest)
      have h2 := ih (fun p hp => h p (List.mem_cons_of_mem q hp))
      simp [h1, h2]
      omega

theorem alookup_isSome_iff {α : Type} {l : List (Nat × α)} {n : Nat} :
    (alookup l n).isSome ↔ n ∈ l.map Prod.fst := by
  induction l with
  | nil => simp
  | cons q rest ih =>
      obtain ⟨k, v⟩ := q
      by_cases hk : k = n
      · simp [alookup, hk]
      · have hnk : ¬n = k := fun he => hk he.symm
        simp [alookup, hk, hnk, ih]

theorem nodup_snoc {α : Type} {l : List α} {a : α} (h : l.Nodup) (ha : a ∉ l) :
    (l ++ [a]).Nodup := by
  rw [List.nodup_append]
  exact ⟨h, List.nodup_singleton a, fun x hx => by
    simp only [List.mem_singleton]
    intro he; exact ha (he ▸ hx)⟩

/-! ### The well-formedness invariant of the shared-pointer state

The central invariant of `SharedT` (§3 of the specification): live handles
and live control blocks have unique ids, every non-`NULL` `m_pointer` of a
live handle designates a live control block, and every live control block's
`refs` field equals the number of live handles pointing at it (and hence is
at least 1). -/

structure WF (s : SState) : Prop where
  hND : (s.handles.map Prod.fst).Nodup
  bND : (s.blocks.map Prod.fst).Nodup
  hFresh : ∀ h ∈ s.handles.map Prod.fst, h < s.nextH
  bFresh : ∀ b ∈ s.blocks.map Prod.fst, b < s.nextB
  noDangle : ∀ h b, alookup s.handles h = some (some b) → b ∈ s.blocks.map Prod.fst
  counts : ∀ b pt, alookup s.blocks b = some pt → pt.refs = (countRefs s.handles b : Int)
  pos : ∀ b pt, alookup s.blocks b = some pt → 1 ≤ countRefs s.handles b

theorem WF.points_lt {s : SState} (w : WF s) :
    ∀ p ∈ s.handles, ∀ b, p.2 = some b → b < s.nextB := by
  intro p hp b hb
  have hl : alookup s.handles p.1 = some p.2 := alookup_of_mem_nodup hp w.hND
  rw [hb] at hl
  exact w.bFresh b (w.noDangle p.1 b hl)

theorem WF.countRefs_fresh {s : SState} (w : WF s) {b : Nat} (hb : s.nextB ≤ b) :
    countRefs s.handles b = 0 :=
  countRefs_eq_zero (fun p hp he => absurd (w.points_lt p hp b he) (by omega))

theorem wf_init : WF initState := by
  constructor <;> simp [initState, alookup]

theorem wf_ctorDefault {s : SState} (w : WF s) : WF (ctorDefault s) := by
  have hnotin : s.nextH ∉ s.handles.map Prod.fst :=
    fun hmem => absurd (w.hFresh _ hmem) (lt_irrefl _)
  have hnone : alookup s.handles s.nextH = none := alookup_eq_none hnotin
  constructor
  · simpa [ctorDefault] using nodup_snoc w.hND hnotin
  · exact w.bND
  · intro h hmem
    simp only [ctorDefault, List.map_append] at hmem ⊢
    rcases List.mem_append.mp hmem with hmem | hmem
    · exact Nat.lt_succ_of_lt (w.hFresh h hmem)
    · simp at hmem; omega
  · exact w.bFresh
  · intro h b hl
    simp only [ctorDefault] at hl
    cases hv : alookup s.handles h with
    | some mp =>
        rw [alookup_append_some _ hv] at hl
        injection hl with hl
        exact w.noDangle h b (hv.trans (by rw [hl]))
    | none =>
        rw [alookup_append_none _ hv] at hl
        by_cases he : s.nextH = h <;> simp [alookup, he] at hl
  · intro b pt hl
    simp only [ctorDefault, countRefs_append]
    have : countRefs [(s.nextH, (none : Option Nat))] b = 0 := by simp
    rw [this]
    simpa using w.counts b pt hl
  · intro b pt hl
    simp only [ctorDefault, countRefs_append]
    have := w.pos b pt hl
    omega

theorem wf_ctorPtr {s : SState} (w : WF s) (ptr : Nat) : WF (ctorPtr s ptr) := by
  have hnotinH : s.nextH ∉ s.handles.map Prod.fst :=
    fun hmem => absurd (w.hFresh _ hmem) (lt_irrefl _)
  have hnotinB : s.nextB ∉ s.blocks.map Prod.fst :=
    fun hmem => absurd (w.bFresh _ hmem) (lt_irrefl _)
  have hBnone : alookup s.blocks s.nextB = none := alookup_eq_none hnotinB
  have hfreshcount : countRefs s.handles s.nextB = 0 := w.countRefs_fresh (le_refl _)
  constructor
  · simpa [ctorPtr] using nodup_snoc w.hND hnotinH
  · simpa [ctorPtr] using nodup_snoc w.bND hnotinB
  · intro h hmem
    simp only [ctorPtr, List.map_append] at hmem ⊢
    rcases List.mem_append.mp hmem with hmem | hmem
    · exact Nat.lt_succ_of_lt (w.hFresh h hmem)
    · simp at hmem; omega
  · intro b hmem
    simp only [ctorPtr, List.map_append] at hmem ⊢
    rcases List.mem_append.mp hmem with hmem | hmem
    · exact Nat.lt_succ_of_lt (w.bFresh b hmem)
    · simp at hmem; omega
  · intro h b hl
    simp only [ctorPtr] at hl ⊢
    rw [List.map_append]
    cases hv : alookup s.handles h with
    | some mp =>
        rw [alookup_append_some _ hv] at hl
        injection hl with hl
        exact List.mem_append_left _ (w.noDangle h b (hv.trans (by rw [hl])))
    | none =>
        rw [alookup_append_none _ hv] at hl
        by_cases he : s.nextH = h
        · simp [alookup, he] at hl
          subst hl
          simp
        · simp [alookup, he] at hl
  · intro b pt hl
    simp only [ctorPtr, countRefs_append] at hl ⊢
    cases hv : alookup s.blocks b with
    | some pt0 =>
        rw [alookup_append_some _ hv] at hl
        injection hl with hl
        subst hl
        have hblt : b < s.nextB := w.bFresh b (mem_keys_of_alookup hv)
        have hne : ¬(some s.nextB = some b) := by
          intro he; injection he with he; omega
        have : countRefs [(s.nextH, some s.nextB)] b = 0 := by simp [hne]
        rw [this]
        simpa using w.counts b pt0 hv
    | none =>
        rw [alookup_append_none _ hv] at hl
        by_cases he : s.nextB = b
        · subst he
          simp [alookup] at hl
          subst hl
          simp [PointerT.mkDefault, hfreshcount]
        · simp [alookup, he] at hl
  · intro b pt hl
    simp only [ctorPtr, countRefs_append] at hl ⊢
    cases hv : alookup s.blocks b with
    | some pt0 =>
        rw [alookup_append_some _ hv] at hl
        have := w.pos b pt0 hv
        omega
    | none =>
        rw [alookup_append_none _ hv] at hl
        by_cases he : s.nextB = b
        · subst he
          simp [hfreshcount]
        · simp [alookup, he] at hl

theorem countRefs_two {l : Handles} {p q : Nat × Option Nat} {b : Nat}
    (hp : p ∈ l) (hq : q ∈ l) (hne : p ≠ q) (hpb : p.2 = some b) (hqb : q.2 = some b) :
    2 ≤ countRefs l b := by
  induction l with
  | nil => simp at hp
  | cons r rest ih =>
      rcases List.mem_cons.mp hp with hp1 | hp1
      · subst hp1
        have hq2 : q ∈ rest := by
          rcases List.mem_cons.mp hq with h1 | h1
          · exact absurd h1.symm hne
          · exact h1
        have := countRefs_pos_of_mem hq2 hqb
        simp [hpb]; omega
      · rcases List.mem_cons.mp hq with h1 | h1
        · subst h1
          have := countRefs_pos_of_mem hp1 hpb
          simp [hqb]; omega
        · have := ih hp1 h1
          simp; omega

theorem retain_none {s : SState} {h : Nat} (hl : alookup s.handles h = some none) :
    retain s h = s := by
  unfold retain
  rw [hl]

theorem retain_dead {s : SState} {h : Nat} (hl : alookup s.handles h = none) :
    retain s h = s := by
  unfold retain
  rw [hl]

theorem retain_eq {s : SState} {h b : Nat} {pt : PointerT}
    (h1 : alookup s.handles h = some (some b)) (h2 : alookup s.blocks b = some pt) :
    retain s h = { s with blocks := aset s.blocks b { pt with refs := pt.refs + 1 } } := by
  unfold retain
  simp only [h1, h2]

theorem ctorCopy_eq {s : SState} {src : Nat} {mp : Option Nat}
    (hv : alookup s.handles src = some mp) :
    ctorCopy s src
      = retain { s with handles := s.handles ++ [(s.nextH, mp)], nextH := s.nextH + 1 }
          s.nextH := by
  unfold ctorCopy
  simp only [hv]

theorem releaseOp_eq_dead {s : SState} {h : Nat} (hv : alookup s.handles h = none) :
    releaseOp s h = s := by
  unfold releaseOp
  rw [hv]

theorem releaseOp_eq_none {s : SState} {h : Nat} (hv : alookup s.handles h = some none) :
    releaseOp s h = s := by
  unfold releaseOp
  rw [hv]

theorem releaseOp_eq_del {s : SState} {h b : Nat} {pt : PointerT}
    (h1 : alookup s.handles h = some (some b)) (h2 : alookup s.blocks b = some pt)
    (h3 : pt.refs - 1 ≤ 0) :
    releaseOp s h
      = { s with
            blocks := aremove s.blocks b,
            handles := aset s.handles h none,
            log := s.log ++ [(b, pt.deleteFun, pt.data)],
            deleted :=
              if pt.deleteFun = RelFun.defaultRel then defaultRelease pt.data s.deleted
              else s.deleted } := by
  unfold releaseOp
  simp only [h1, h2, if_pos h3]

theorem releaseOp_eq_dec {s : SState} {h b : Nat} {pt : PointerT}
    (h1 : alookup s.handles h = some (some b)) (h2 : alookup s.blocks b = some pt)
    (h3 : ¬pt.refs - 1 ≤ 0) :
    releaseOp s h
      = { s with
            blocks := aset s.blocks b { pt with refs := pt.refs - 1 },
            handles := aset s.handles h none } := by
  unfold releaseOp
  simp only [h1, h2, if_neg h3]

theorem releaseOp_eq_dangling {s : SState} {h b : Nat}
    (h1 : alookup s.handles h = some (some b)) (h2 : alookup s.blocks b = none) :
    releaseOp s h = { s with handles := aset s.handles h none } := by
  unfold releaseOp
  simp only [h1, h2]

/-- State shape between writing a handle's `m_pointer` and the subsequent
`retain()` call inside the copy constructor and `assign`: handle `h` already
points at block `b`, whose stored count is one short of the live-handle
count; everything else is well-formed. -/
structure Pending (s : SState) (h b : Nat) : Prop where
  hND : (s.handles.map Prod.fst).Nodup
  bND : (s.blocks.map Prod.fst).Nodup
  hFresh : ∀ h2 ∈ s.handles.map Prod.fst, h2 < s.nextH
  bFresh : ∀ b2 ∈ s.blocks.map Prod.fst, b2 < s.nextB
  noDangle : ∀ h2 b2, alookup s.handles h2 = some (some b2) → b2 ∈ s.blocks.map Prod.fst
  self : alookup s.handles h = some (some b)
  countsOther : ∀ b2 pt, alookup s.blocks b2 = some pt → b2 ≠ b →
      pt.refs = (countRefs s.handles b2 : Int)
  countsSelf : ∀ pt, alookup s.blocks b = some pt →
      pt.refs + 1 = (countRefs s.handles b : Int)
  posOther : ∀ b2 pt, alookup s.blocks b2 = some pt → b2 ≠ b → 1 ≤ countRefs s.handles b2

theorem wf_retain_pending {s : SState} {h b : Nat} (p : Pending s h b) :
    WF (retain s h) := by
  have hbmem : b ∈ s.blocks.map Prod.fst := p.noDangle h b p.self
  obtain ⟨pt, hpt⟩ : ∃ pt, alookup s.blocks b = some pt := by
    have hs := alookup_isSome_iff.mpr hbmem
    cases hv : alookup s.blocks b with
    | none => rw [hv] at hs; simp at hs
    | some pt => exact ⟨pt, rfl⟩
  have hposb : 1 ≤ countRefs s.handles b :=
    countRefs_pos_of_mem (mem_of_alookup p.self) rfl
  rw [retain_eq p.self hpt]
  constructor
  · exact p.hND
  · simpa using p.bND
  · exact p.hFresh
  · intro b2 hmem
    rw [map_fst_aset] at hmem
    exact p.bFresh b2 hmem
  · intro h2 b2 hl
    rw [map_fst_aset]
    exact p.noDangle h2 b2 hl
  · intro b2 pt2 hl
    by_cases he : b2 = b
    · subst he
      rw [alookup_aset_eq, hpt] at hl
      simp only [Option.map] at hl
      injection hl with hl
      subst hl
      exact p.countsSelf pt hpt
    · rw [alookup_aset_ne _ _ he] at hl
      exact p.countsOther b2 pt2 hl he
  · intro b2 pt2 hl
    by_cases he : b2 = b
    · subst he; exact hposb
    · rw [alookup_aset_ne _ _ he] at hl
      exact p.posOther b2 pt2 hl he

theorem wf_ctorCopy {s : SState} (w : WF s) (src : Nat) : WF (ctorCopy s src) := by
  have hnotinH : s.nextH ∉ s.handles.map Prod.fst :=
    fun hmem => absurd (w.hFresh _ hmem) (lt_irrefl _)
  have hfresh : alookup s.handles s.nextH = none := alookup_eq_none hnotinH
  cases hv : alookup s.handles src with
  | none =>
      unfold ctorCopy
      rw [hv]
      exact w
  | some mp =>
    rw [ctorCopy_eq hv]
    cases mp with
    | none =>
        have hlook : alookup (s.handles ++ [(s.nextH, (none : Option Nat))]) s.nextH
            = some none := by
          rw [alookup_append_none _ hfresh]; simp [alookup]
        rw [retain_none hlook]
        exact wf_ctorDefault w
    | some b =>
        have hbmem : b ∈ s.blocks.map Prod.fst := w.noDangle src b hv
        apply wf_retain_pending (b := b)
        constructor
        · simpa using nodup_snoc w.hND hnotinH
        · exact w.bND
        · intro h2 hmem
          simp only [List.map_append] at hmem
          show h2 < s.nextH + 1
          rcases List.mem_append.mp hmem with hmem | hmem
          · exact Nat.lt_succ_of_lt (w.hFresh h2 hmem)
          · simp at hmem; omega
        · exact w.bFresh
        · intro h2 b2 hl
          cases hv2 : alookup s.handles h2 with
          | some mp2 =>
              rw [alookup_append_some _ hv2] at hl
              injection hl with hl
              exact w.noDangle h2 b2 (hv2.trans (by rw [hl]))
          | none =>
              rw [alookup_append_none _ hv2] at hl
              by_cases he : s.nextH = h2
              · simp [alookup, he] at hl
                subst hl
                exact hbmem
              · simp [alookup, he] at hl
        · rw [alookup_append_none _ hfresh]
          simp [alookup]
        · intro b2 pt hl hne
          rw [countRefs_append]
          have hne2 : ¬((some b : Option Nat) = some b2) := by
            intro he; injection he with he; exact hne he.symm
          have : countRefs [(s.nextH, some b)] b2 = 0 := by simp [hne2]
          rw [this]
          simpa using w.counts b2 pt hl
        · intro pt hl
          rw [countRefs_append]
          have : countRefs [(s.nextH, some b)] b = 1 := by simp
          rw [this]
          have := w.counts b pt hl
          push_cast
          omega
        · intro b2 pt hl hne
          rw [countRefs_append]
          have := w.pos b2 pt hl
          omega

theorem wf_releaseOp {s : SState} (w : WF s) (h : Nat) : WF (releaseOp s h) := by
  cases hv : alookup s.handles h with
  | none => rw [releaseOp_eq_dead hv]; exact w
  | some mp =>
    cases mp with
    | none => rw [releaseOp_eq_none hv]; exact w
    | some b =>
      have hbmem : b ∈ s.blocks.map Prod.fst := w.noDangle h b hv
      obtain ⟨pt, hpt⟩ : ∃ pt, alookup s.blocks b = some pt := by
        have hs := alookup_isSome_iff.mpr hbmem
        cases hv2 : alookup s.blocks b with
        | none => rw [hv2] at hs; simp at hs
        | some pt => exact ⟨pt, rfl⟩
      have hcount : pt.refs = (countRefs s.handles b : Int) := w.counts b pt hpt
      have hpos : 1 ≤ countRefs s.handles b := w.pos b pt hpt
      by_cases hz : pt.refs - 1 ≤ 0
      · rw [releaseOp_eq_del hv hpt hz]
        have hcount1 : countRefs s.handles b = 1 := by omega
        have huniq : ∀ p2 ∈ s.handles, p2.2 = some b → p2.1 = h := by
          intro p2 hp2 hb2
          by_contra hne
          have hmem2 : (h, some b) ∈ s.handles := mem_of_alookup hv
          have hneq : p2 ≠ (h, some b) := by
            intro he; rw [he] at hne; exact hne rfl
          have := countRefs_two hp2 hmem2 hneq hb2 rfl
          omega
        constructor
        · simpa using w.hND
        · exact nodup_aremove b w.bND
        · intro h2 hmem
          rw [map_fst_aset] at hmem
          exact w.hFresh h2 hmem
        · intro b2 hmem
          exact w.bFresh b2 ((map_fst_aremove_sublist _ _).subset hmem)
        · intro h2 b2 hl
          by_cases he : h2 = h
          · subst he
            rw [alookup_aset_eq, hv] at hl
            simp [Option.map] at hl
          · rw [alookup_aset_ne _ _ he] at hl
            have hb2 : b2 ∈ s.blocks.map Prod.fst := w.noDangle h2 b2 hl
            have hb2b : b2 ≠ b := by
              intro heq; subst heq
              exact he (huniq (h2, some b2) (mem_of_alookup hl) rfl)
            rw [← alookup_isSome_iff, alookup_aremove_ne _ hb2b]
            exact alookup_isSome_iff.mpr hb2
        · intro b2 pt2 hl
          have hb2b : b2 ≠ b := by
            intro heq; subst heq
            rw [alookup_aremove_self] at hl
            exact Option.noConfusion hl
          rw [alookup_aremove_ne _ hb2b] at hl
          have heq := countRefs_aset (l := s.handles) none b2 hv
          have hne2 : ¬((some b : Option Nat) = some b2) := by
            intro he; injection he with he; exact hb2b he.symm
          simp [hne2] at heq
          rw [heq]
          exact w.counts b2 pt2 hl
        · intro b2 pt2 hl
          have hb2b : b2 ≠ b := by
            intro heq; subst heq
            rw [alookup_aremove_self] at hl
            exact Option.noConfusion hl
          rw [alookup_aremove_ne _ hb2b] at hl
          have heq := countRefs_aset (l := s.handles) none b2 hv
          have hne2 : ¬((some b : Option Nat) = some b2) := by
            intro he; injection he with he; exact hb2b he.symm
          simp [hne2] at heq
          rw [heq]
          exact w.pos b2 pt2 hl
      · rw [releaseOp_eq_dec hv hpt hz]
        have hcount2 : 2 ≤ countRefs s.handles b := by omega
        have heqb := countRefs_aset (l := s.handles) none b hv
        simp at heqb
        constructor
        · simpa using w.hND
        · simpa using w.bND
        · intro h2 hmem
          rw [map_fst_aset] at hmem
          exact w.hFresh h2 hmem
        · intro b2 hmem
          rw [map_fst_aset] at hmem
          exact w.bFresh b2 hmem
        · intro h2 b2 hl
          by_cases he : h2 = h
          · subst he
            rw [alookup_aset_eq, hv] at hl
            simp [Option.map] at hl
          · rw [alookup_aset_ne _ _ he] at hl
            rw [map_fst_aset]
            exact w.noDangle h2 b2 hl
        · intro b2 pt2 hl
          by_cases he : b2 = b
          · rw [he] at hl ⊢
            rw [alookup_aset_eq, hpt] at hl
            simp only [Option.map] at hl
            injection hl with hl
            rw [← hl]
            show pt.refs - 1 = (countRefs (aset s.handles h none) b : Int)
            omega
          · rw [alookup_aset_ne _ _ he] at hl
            have heq := countRefs_aset (l := s.handles) none b2 hv
            have hne2 : ¬((some b : Option Nat) = some b2) := by
              intro h3; injection h3 with h3; exact he h3.symm
            simp [hne2] at heq
            rw [heq]
            exact w.counts b2 pt2 hl
        · intro b2 pt2 hl
          by_cases he : b2 = b
          · rw [he]
            show 1 ≤ countRefs (aset s.handles h none) b
            omega
          · rw [alookup_aset_ne _ _ he] at hl
            have heq := countRefs_aset (l := s.handles) none b2 hv
            have hne2 : ¬((some b : Option Nat) = some b2) := by
              intro h3; injection h3 with h3; exact he h3.symm
            simp [hne2] at heq
            rw [heq]
            exact w.pos b2 pt2 hl

theorem releaseOp_nextB (s : SState) (h : Nat) : (releaseOp s h).nextB = s.nextB := by
  cases hv : alookup s.handles h with
  | none => rw [releaseOp_eq_dead hv]
  | some mp =>
    cases mp with
    | none => rw [releaseOp_eq_none hv]
    | some b =>
      cases hb : alookup s.blocks b with
      | none => rw [releaseOp_eq_dangling hv hb]
      | some pt =>
        by_cases hz : pt.refs - 1 ≤ 0
        · rw [releaseOp_eq_del hv hb hz]
        · rw [releaseOp_eq_dec hv hb hz]

theorem releaseOp_nextH (s : SState) (h : Nat) : (releaseOp s h).nextH = s.nextH := by
  cases hv : alookup s.handles h with
  | none => rw [releaseOp_eq_dead hv]
  | some mp =>
    cases mp with
    | none => rw [releaseOp_eq_none hv]
    | some b =>
      cases hb : alookup s.blocks b with
      | none => rw [releaseOp_eq_dangling hv hb]
      | some pt =>
        by_cases hz : pt.refs - 1 ≤ 0
        · rw [releaseOp_eq_del hv hb hz]
        · rw [releaseOp_eq_dec hv hb hz]

theorem releaseOp_lookup_self {s : SState} {h : Nat} {mp : Option Nat}
    (hv : alookup s.handles h = some mp) :
    alookup (releaseOp s h).handles h = some none := by
  cases mp with
  | none => rw [releaseOp_eq_none hv]; exact hv
  | some b =>
      cases hb : alookup s.blocks b with
      | none =>
          rw [releaseOp_eq_dangling hv hb]
          show alookup (aset s.handles h none) h = some none
          rw [alookup_aset_eq, hv]
          rfl
      | some pt =>
        by_cases hz : pt.refs - 1 ≤ 0
        · rw [releaseOp_eq_del hv hb hz]
          show alookup (aset s.handles h none) h = some none
          rw [alookup_aset_eq, hv]
          rfl
        · rw [releaseOp_eq_dec hv hb hz]
          show alookup (aset s.handles h none) h = some none
          rw [alookup_aset_eq, hv]
          rfl

theorem releaseOp_blocks_keeps {s : SState} {h b2 : Nat}
    (hne : alookup s.handles h ≠ some (some b2)) (hmem : b2 ∈ s.blocks.map Prod.fst) :
    b2 ∈ (releaseOp s h).blocks.map Prod.fst := by
  cases hv : alookup s.handles h with
  | none => rw [releaseOp_eq_dead hv]; exact hmem
  | some mp =>
    cases mp with
    | none => rw [releaseOp_eq_none hv]; exact hmem
    | some b =>
      have hb2b : b2 ≠ b := by
        intro he; subst he; rw [hv] at hne; exact hne rfl
      cases hb : alookup s.blocks b with
      | none => rw [releaseOp_eq_dangling hv hb]; exact hmem
      | some pt =>
        by_cases hz : pt.refs - 1 ≤ 0
        · rw [releaseOp_eq_del hv hb hz]
          show b2 ∈ (aremove s.blocks b).map Prod.fst
          rw [← alookup_isSome_iff, alookup_aremove_ne _ hb2b]
          exact alookup_isSome_iff.mpr hmem
        · rw [releaseOp_eq_dec hv hb hz]
          show b2 ∈ (aset s.blocks b _).map Prod.fst
          rw [map_fst_aset]
          exact hmem

theorem dtor_eq {s : SState} {h : Nat} {mp : Option Nat}
    (hv : alookup s.handles h = some mp) :
    dtor s h = { releaseOp s h with handles := aremove (releaseOp s h).handles h } := by
  unfold dtor
  simp only [hv]

theorem wf_dtor {s : SState} (w : WF s) (h : Nat) : WF (dtor s h) := by
  cases hv : alookup s.handles h with
  | none =>
      unfold dtor
      rw [hv]
      exact w
  | some mp =>
      rw [dtor_eq hv]
      have w1 := wf_releaseOp w h
      have hself : alookup (releaseOp s h).handles h = some none :=
        releaseOp_lookup_self hv
      have hcnt : ∀ b2, countRefs (aremove (releaseOp s h).handles h) b2
          = countRefs (releaseOp s h).handles b2 := by
        intro b2
        have := countRefs_aremove b2 hself w1.hND
        simpa using this
      constructor
      · exact nodup_aremove h w1.hND
      · exact w1.bND
      · intro h2 hmem
        exact w1.hFresh h2 ((map_fst_aremove_sublist _ _).subset hmem)
      · exact w1.bFresh
      · intro h2 b2 hl
        by_cases he : h2 = h
        · subst he
          rw [alookup_aremove_self] at hl
          exact Option.noConfusion hl
        · rw [alookup_aremove_ne _ he] at hl
          exact w1.noDangle h2 b2 hl
      · intro b2 pt2 hl
        rw [hcnt b2]
        exact w1.counts b2 pt2 hl
      · intro b2 pt2 hl
        rw [hcnt b2]
        exact w1.pos b2 pt2 hl

theorem assignH_eq {s : SState} {dst src : Nat} {mpD mpS : Option Nat}
    (h1 : alookup s.handles dst = some mpD) (h2 : alookup s.handles src = some mpS)
    (hg : mpD ≠ mpS) :
    assignH s dst src
      = retain
          { releaseOp s dst with handles := aset (releaseOp s dst).handles dst mpS }
          dst := by
  unfold assignH
  simp only [h1, h2, if_neg hg]

theorem wf_assignH {s : SState} (w : WF s) (dst src : Nat) : WF (assignH s dst src) := by
  cases hv1 : alookup s.handles dst with
  | none =>
      unfold assignH
      rw [hv1]
      exact w
  | some mpD =>
    cases hv2 : alookup s.handles src with
    | none =>
        unfold assignH
        rw [hv1, hv2]
        exact w
    | some mpS =>
      by_cases hg : mpD = mpS
      · unfold assignH
        rw [hv1, hv2]
        simp only [if_pos hg]
        exact w
      · rw [assignH_eq hv1 hv2 hg]
        have w1 := wf_releaseOp w dst
        have hself : alookup (releaseOp s dst).handles dst = some none :=
          releaseOp_lookup_self hv1
        cases mpS with
        | none =>
            have hlook : alookup (aset (releaseOp s dst).handles dst (none : Option Nat)) dst
                = some none := by
              rw [alookup_aset_eq, hself]; rfl
            rw [retain_none hlook]
            have hcnt : ∀ b2, countRefs (aset (releaseOp s dst).handles dst none) b2
                = countRefs (releaseOp s dst).handles b2 := by
              intro b2
              have := countRefs_aset (none : Option Nat) b2 hself
              simpa using this
            constructor
            · simpa using w1.hND
            · exact w1.bND
            · intro h2 hmem
              rw [map_fst_aset] at hmem
              exact w1.hFresh h2 hmem
            · exact w1.bFresh
            · intro h2 b2 hl
              by_cases he : h2 = dst
              · subst he
                rw [alookup_aset_eq, hself] at hl
                simp [Option.map] at hl
              · rw [alookup_aset_ne _ _ he] at hl
                exact w1.noDangle h2 b2 hl
            · intro b2 pt2 hl
              rw [hcnt b2]
              exact w1.counts b2 pt2 hl
            · intro b2 pt2 hl
              rw [hcnt b2]
              exact w1.pos b2 pt2 hl
        | some bS =>
            have hkeepS : bS ∈ (releaseOp s dst).blocks.map Prod.fst := by
              apply releaseOp_blocks_keeps
              · rw [hv1]
                intro he
                injection he with he
                exact hg he
              · exact w.noDangle src bS hv2
            apply wf_retain_pending (b := bS)
            constructor
            · simpa using w1.hND
            · exact w1.bND
            · intro h2 hmem
              rw [map_fst_aset] at hmem
              exact w1.hFresh h2 hmem
            · exact w1.bFresh
            · intro h2 b2 hl
              by_cases he : h2 = dst
              · subst he
                rw [alookup_aset_eq, hself] at hl
                simp only [Option.map] at hl
                injection hl with hl
                injection hl with hl
                rw [← hl]
                exact hkeepS
              · rw [alookup_aset_ne _ _ he] at hl
                exact w1.noDangle h2 b2 hl
            · show alookup (aset (releaseOp s dst).handles dst (some bS)) dst
                = some (some bS)
              rw [alookup_aset_eq, hself]
              rfl
            · intro b2 pt2 hl hne
              have heq := countRefs_aset (some bS) b2 hself
              have hne2 : ¬((some bS : Option Nat) = some b2) := by
                intro he; injection he with he; exact hne he.symm
              simp [hne2] at heq
              rw [heq]
              exact w1.counts b2 pt2 hl
            · intro pt2 hl
              have heq := countRefs_aset (some bS) bS hself
              simp at heq
              rw [heq]
              have := w1.counts bS pt2 hl
              push_cast
              omega
            · intro b2 pt2 hl hne
              have heq := countRefs_aset (some bS) b2 hself
              have hne2 : ¬((some bS : Option Nat) = some b2) := by
                intro he; injection he with he; exact hne he.symm
              simp [hne2] at heq
              rw [heq]
              exact w1.pos b2 pt2 hl

theorem assignPF_eq {s : SState} {h : Nat} {mp : Option Nat} (ptr : Nat) (fn : RelFun)
    (hv : alookup s.handles h = some mp) (hne : ¬ptr = dataOf s h) :
    assignPF s h ptr fn
      = { releaseOp s h with
            blocks := (releaseOp s h).blocks
              ++ [((releaseOp s h).nextB, PointerT.mkWith ptr fn)],
            nextB := (releaseOp s h).nextB + 1,
            handles := aset (releaseOp s h).handles h (some (releaseOp s h).nextB) } := by
  unfold assignPF
  simp only [hv, if_neg hne]

theorem wf_assignPF {s : SState} (w : WF s) (h ptr : Nat) (fn : RelFun) :
    WF (assignPF s h ptr fn) := by
  cases hv : alookup s.handles h with
  | none =>
      unfold assignPF
      rw [hv]
      exact w
  | some mp =>
    by_cases hsame : ptr = dataOf s h
    · unfold assignPF
      rw [hv]
      simp only [if_pos hsame]
      exact w
    · rw [assignPF_eq ptr fn hv hsame]
      have w1 := wf_releaseOp w h
      have hself : alookup (releaseOp s h).handles h = some none :=
        releaseOp_lookup_self hv
      have hnotinB : (releaseOp s h).nextB ∉ (releaseOp s h).blocks.map Prod.fst :=
        fun hmem => absurd (w1.bFresh _ hmem) (lt_irrefl _)
      have hBnone : alookup (releaseOp s h).blocks (releaseOp s h).nextB = none :=
        alookup_eq_none hnotinB
      have hfreshcount : countRefs (releaseOp s h).handles (releaseOp s h).nextB = 0 :=
        w1.countRefs_fresh (le_refl _)
      constructor
      · simpa using w1.hND
      · simpa using nodup_snoc w1.bND hnotinB
      · intro h2 hmem
        rw [map_fst_aset] at hmem
        exact w1.hFresh h2 hmem
      · intro b2 hmem
        simp only [List.map_append] at hmem
        show b2 < (releaseOp s h).nextB + 1
        rcases List.mem_append.mp hmem with hmem | hmem
        · exact Nat.lt_succ_of_lt (w1.bFresh b2 hmem)
        · simp at hmem; omega
      · intro h2 b2 hl
        rw [List.map_append]
        by_cases he : h2 = h
        · subst he
          rw [alookup_aset_eq, hself] at hl
          simp only [Option.map] at hl
          injection hl with hl
          injection hl with hl
          rw [← hl]
          apply List.mem_append_right
          simp
        · rw [alookup_aset_ne _ _ he] at hl
          exact List.mem_append_left _ (w1.noDangle h2 b2 hl)
      · intro b2 pt2 hl
        cases hvb : alookup (releaseOp s h).blocks b2 with
        | some pt0 =>
            rw [alookup_append_some _ hvb] at hl
            injection hl with hl
            subst hl
            have hblt : b2 < (releaseOp s h).nextB := w1.bFresh b2 (mem_keys_of_alookup hvb)
            have heq := countRefs_aset (some (releaseOp s h).nextB) b2 hself
            have hne2 : ¬((some (releaseOp s h).nextB : Option Nat) = some b2) := by
              intro he; injection he with he; omega
            simp [hne2] at heq
            rw [heq]
            exact w1.counts b2 pt0 hvb
        | none =>
            rw [alookup_append_none _ hvb] at hl
            by_cases he : (releaseOp s h).nextB = b2
            · subst he
              simp [alookup] at hl
              subst hl
              have heq := countRefs_aset
                (some (releaseOp s h).nextB) (releaseOp s h).nextB hself
              simp at heq
              rw [heq, hfreshcount]
              simp [PointerT.mkWith]
            · simp [alookup, he] at hl
      · intro b2 pt2 hl
        cases hvb : alookup (releaseOp s h).blocks b2 with
        | some pt0 =>
            have hblt : b2 < (releaseOp s h).nextB := w1.bFresh b2 (mem_keys_of_alookup hvb)
            have heq := countRefs_aset (some (releaseOp s h).nextB) b2 hself
            have hne2 : ¬((some (releaseOp s h).nextB : Option Nat) = some b2) := by
              intro he; injection he with he; omega
            simp [hne2] at heq
            rw [heq]
            exact w1.pos b2 pt0 hvb
        | none =>
            rw [alookup_append_none _ hvb] at hl
            by_cases he : (releaseOp s h).nextB = b2
            · subst he
              have heq := countRefs_aset
                (some (releaseOp s h).nextB) (releaseOp s h).nextB hself
              simp at heq
              rw [heq, hfreshcount]
            · simp [alookup, he] at hl

theorem wf_step {s : SState} (w : WF s) (op : Op) : WF (step s op) := by
  cases op with
  | ctorDefault => exact wf_ctorDefault w
  | ctorPtr ptr => exact wf_ctorPtr w ptr
  | ctorPtrFun ptr fn => exact wf_ctorPtr w ptr
  | ctorCopy src => exact wf_ctorCopy w src
  | dtor h => exact wf_dtor w h
  | assignH dst src => exact wf_assignH w dst src
  | assignPF h ptr fn => exact wf_assignPF w h ptr fn
  | opAssignH dst src => exact wf_assignH w dst src
  | opAssignP h ptr => exact wf_assignPF w h ptr RelFun.defaultRel

theorem wf_foldl {s : SState} (w : WF s) (ops : List Op) : WF (ops.foldl step s) := by
  induction ops generalizing s with
  | nil => exact w
  | cons op rest ih => exact ih (wf_step w op)

theorem wf_run (ops : List Op) : WF (run ops) :=
  wf_foldl wf_init ops

theorem mem_aremove_ne {α : Type} {l : List (Nat × α)} {n : Nat} {p : Nat × α}
    (h : p ∈ aremove l n) : p.1 ≠ n := by
  induction l with
  | nil => simp [aremove] at h
  | cons q rest ih =>
      obtain ⟨k, v⟩ := q
      by_cases hk : k = n
      · simp [aremove, hk] at h
        exact ih h
      · simp [aremove, hk] at h
        rcases h with h | h
        · rw [h]; exact hk
        · exact ih h

/-- Classifier for the operations appearing in the double-release scenario:
copy construction and destruction only. -/
def isCopyOrDtor : Op → Bool
  | Op.ctorCopy _ => true
  | Op.dtor _ => true
  | _ => false

/-- Trace invariant for the double-release scenario while some handle of the
single family is still alive: block 0 is the only block ever allocated, its
count matches the live handles (all of which point at it), and no release
function has been invoked yet. -/
def C2Live (s : SState) (p : Nat) : Prop :=
  s.nextB = 1 ∧
  s.blocks = [(0, { refs := (countRefs s.handles 0 : Int), data := p,
                    deleteFun := RelFun.defaultRel })] ∧
  s.log = [] ∧
  1 ≤ countRefs s.handles 0 ∧
  (∀ q ∈ s.handles, q.2 = some 0) ∧
  (s.handles.map Prod.fst).Nodup ∧
  (∀ q ∈ s.handles, q.1 < s.nextH)

/-- Trace invariant once the last handle of the family has been destroyed:
everything is gone and the default release function was invoked exactly
once, with the original pointer. -/
def C2Dead (s : SState) (p : Nat) : Prop :=
  s.blocks = [] ∧ s.handles = [] ∧ s.log = [(0, RelFun.defaultRel, p)]

/-- Disjunction of the two phases of the double-release scenario. -/
def C2Inv (s : SState) (p : Nat) : Prop := C2Live s p ∨ C2Dead s p

theorem C2_start (p : Nat) : C2Inv (run [Op.ctorPtr p]) p := by
  left
  refine ⟨rfl, ?_, rfl, ?_, ?_, ?_, ?_⟩
  · show [(0, PointerT.mkDefault p)] = _
    have : countRefs (run [Op.ctorPtr p]).handles 0 = 1 := rfl
    rw [this]
    rfl
  · show 1 ≤ countRefs [(0, some 0)] 0
    decide
  · show ∀ q ∈ [((0 : Nat), some (0 : Nat))], q.2 = some 0
    decide
  · show ([((0 : Nat), some (0 : Nat))].map Prod.fst).Nodup
    decide
  · show ∀ q ∈ [((0 : Nat), some (0 : Nat))], q.1 < 1
    decide

theorem C2_step_copy {s : SState} {p : Nat} (inv : C2Inv s p) (src : Nat) :
    C2Inv (ctorCopy s src) p := by
  rcases inv with hL | hD
  · obtain ⟨hnB, hBlocks, hLog, hPos, hAll, hND, hFresh⟩ := hL
    cases hv : alookup s.handles src with
    | none =>
        unfold ctorCopy
        rw [hv]
        exact Or.inl ⟨hnB, hBlocks, hLog, hPos, hAll, hND, hFresh⟩
    | some mp =>
        have hmp : mp = some 0 := hAll (src, mp) (mem_of_alookup hv)
        subst hmp
        rw [ctorCopy_eq hv]
        have hfreshH : alookup s.handles s.nextH = none := by
          apply alookup_eq_none
          intro hmem
          rcases List.mem_map.mp hmem with ⟨q, hq, hqe⟩
          have := hFresh q hq
          omega
        have hlook2 : alookup (s.handles ++ [(s.nextH, some 0)]) s.nextH
            = some (some 0) := by
          rw [alookup_append_none _ hfreshH]
          simp [alookup]
        have hlookB : alookup s.blocks 0
            = some { refs := (countRefs s.handles 0 : Int), data := p,
                     deleteFun := RelFun.defaultRel } := by
          rw [hBlocks]
          simp [alookup]
        rw [retain_eq
          (s := { s with
                    handles := s.handles ++ [(s.nextH, some 0)],
                    nextH := s.nextH + 1 }) hlook2 hlookB]
        have hcnt2 : countRefs (s.handles ++ [(s.nextH, some 0)]) 0
            = countRefs s.handles 0 + 1 := by
          rw [countRefs_append]
          simp
        left
        refine ⟨hnB, ?_, hLog, ?_, ?_, ?_, ?_⟩
        · show aset s.blocks 0 ⟨(countRefs s.handles 0 : Int) + 1, p, RelFun.defaultRel⟩
            = [(0, ⟨(countRefs (s.handles ++ [(s.nextH, some 0)]) 0 : Int), p,
                RelFun.defaultRel⟩)]
          rw [hBlocks, hcnt2]
          simp [aset]
        · show 1 ≤ countRefs (s.handles ++ [(s.nextH, some 0)]) 0
          rw [hcnt2]
          omega
        · intro q hq
          show q.2 = some 0
          rcases List.mem_append.mp hq with hq | hq
          · exact hAll q hq
          · simp at hq
            rw [hq]
        · show ((s.handles ++ [(s.nextH, some 0)]).map Prod.fst).Nodup
          rw [List.map_append]
          apply nodup_snoc hND
          intro hmem
          rcases List.mem_map.mp hmem with ⟨q, hq, hqe⟩
          have := hFresh q hq
          omega
        · intro q hq
          show q.1 < s.nextH + 1
          rcases List.mem_append.mp hq with hq | hq
          · have := hFresh q hq
            omega
          · simp at hq
            rw [hq]
            omega
  · obtain ⟨hB, hH, hLog⟩ := hD
    have hv : alookup s.handles src = none := by rw [hH]; rfl
    unfold ctorCopy
    rw [hv]
    exact Or.inr ⟨hB, hH, hLog⟩

theorem C2_step_dtor {s : SState} {p : Nat} (inv : C2Inv s p) (h : Nat) :
    C2Inv (dtor s h) p := by
  rcases inv with hL | hD
  · obtain ⟨hnB, hBlocks, hLog, hPos, hAll, hND, hFresh⟩ := hL
    cases hv : alookup s.handles h with
    | none =>
        unfold dtor
        rw [hv]
        exact Or.inl ⟨hnB, hBlocks, hLog, hPos, hAll, hND, hFresh⟩
    | some mp =>
        have hmp : mp = some 0 := hAll (h, mp) (mem_of_alookup hv)
        subst hmp
        rw [dtor_eq hv]
        have hlookB : alookup s.blocks 0
            = some ⟨(countRefs s.handles 0 : Int), p, RelFun.defaultRel⟩ := by
          rw [hBlocks]
          simp [alookup]
        by_cases h1 : countRefs s.handles 0 = 1
        · have hz : ((⟨(countRefs s.handles 0 : Int), p,
              RelFun.defaultRel⟩ : PointerT)).refs - 1 ≤ 0 := by
            show (countRefs s.handles 0 : Int) - 1 ≤ 0
            omega
          rw [releaseOp_eq_del hv hlookB hz]
          right
          have hlen : s.handles.length = 1 := by
            have := countRefs_eq_length hAll
            omega
          obtain ⟨q, hq⟩ := List.length_eq_one.mp hlen
          have hqh : q = (h, some 0) := by
            have hm : (h, some 0) ∈ s.handles := mem_of_alookup hv
            rw [hq] at hm
            have := List.mem_singleton.mp hm
            exact this.symm
          refine ⟨?_, ?_, ?_⟩
          · show aremove s.blocks 0 = []
            rw [hBlocks]
            simp [aremove]
          · show aremove (aset s.handles h none) h = []
            rw [hq, hqh]
            simp [aset, aremove]
          · show s.log ++ [(0, RelFun.defaultRel, p)] = [(0, RelFun.defaultRel, p)]
            rw [hLog]
            rfl
        · have hge2 : 2 ≤ countRefs s.handles 0 := by omega
          have hz : ¬((⟨(countRefs s.handles 0 : Int), p,
              RelFun.defaultRel⟩ : PointerT)).refs - 1 ≤ 0 := by
            show ¬((countRefs s.handles 0 : Int) - 1 ≤ 0)
            omega
          rw [releaseOp_eq_dec hv hlookB hz]
          left
          have hself2 : alookup (aset s.handles h none) h = some none := by
            rw [alookup_aset_eq, hv]
            rfl
          have hnd2 : ((aset s.handles h none).map Prod.fst).Nodup := by
            rw [map_fst_aset]
            exact hND
          have hc1 : countRefs (aset s.handles h none) 0 + 1
              = countRefs s.handles 0 := by
            have := countRefs_aset (none : Option Nat) 0 hv
            simpa using this
          have hc2 : countRefs (aremove (aset s.handles h none) h) 0
              = countRefs (aset s.handles h none) 0 := by
            have := countRefs_aremove 0 hself2 hnd2
            simpa using this
          refine ⟨hnB, ?_, hLog, ?_, ?_, ?_, ?_⟩
          · show aset s.blocks 0 ⟨(countRefs s.handles 0 : Int) - 1, p, RelFun.defaultRel⟩
              = [(0, ⟨(countRefs (aremove (aset s.handles h none) h) 0 : Int), p,
                  RelFun.defaultRel⟩)]
            have hval : ((countRefs (aremove (aset s.handles h none) h) 0 : Nat) : Int)
                = (countRefs s.handles 0 : Int) - 1 := by
              rw [hc2]
              omega
            rw [hval, hBlocks]
            simp [aset]
          · show 1 ≤ countRefs (aremove (aset s.handles h none) h) 0
            rw [hc2]
            omega
          · intro q hq
            show q.2 = some 0
            have hne := mem_aremove_ne hq
            rcases mem_aset (mem_aremove hq) with hq3 | hq3
            · exact hAll q hq3
            · have : q.1 = h := by rw [hq3.1]
              exact absurd this hne
          · show ((aremove (aset s.handles h none) h).map Prod.fst).Nodup
            exact nodup_aremove h hnd2
          · intro q hq
            show q.1 < s.nextH
            have hne := mem_aremove_ne hq
            rcases mem_aset (mem_aremove hq) with hq3 | hq3
            · exact hFresh q hq3
            · have : q.1 = h := by rw [hq3.1]
              exact absurd this hne
  · obtain ⟨hB, hH, hLog⟩ := hD
    have hv : alookup s.handles h = none := by rw [hH]; rfl
    unfold dtor
    rw [hv]
    exact Or.inr ⟨hB, hH, hLog⟩

theorem C2_fold {s : SState} {p : Nat} (inv : C2Inv s p) (ops : List Op)
    (hops : ∀ op ∈ ops, isCopyOrDtor op = true) :
    C2Inv (ops.foldl step s) p := by
  induction ops generalizing s with
  | nil => exact inv
  | cons op rest ih =>
      have hop := hops op (List.mem_cons_self op rest)
      have hrest : ∀ op2 ∈ rest, isCopyOrDtor op2 = true :=
        fun op2 h2 => hops op2 (List.mem_cons_of_mem op h2)
      refine ih ?_ hrest
      cases op with
      | ctorCopy src => exact C2_step_copy inv src
      | dtor h => exact C2_step_dtor inv h
      | ctorDefault => simp [isCopyOrDtor] at hop
      | ctorPtr ptr => simp [isCopyOrDtor] at hop
      | ctorPtrFun ptr fn => simp [isCopyOrDtor] at hop
      | assignH dst src => simp [isCopyOrDtor] at hop
      | assignPF h ptr fn => simp [isCopyOrDtor] at hop
      | opAssignH dst src => simp [isCopyOrDtor] at hop
      | opAssignP h ptr => simp [isCopyOrDtor] at hop

/-! ### The claims about the shared-pointer primitive -/

/-- C1: along every trace of `SharedT` operations started from nothing, every
live control block's reference count equals the number of live handles whose
`m_pointer` designates it, and `shares()` observed on any live attached
handle returns exactly that number of live handles. -/
theorem C1_refcount_invariant (ops : List Op) :
    (∀ b pt, alookup (run ops).blocks b = some pt →
        pt.refs = (countRefs (run ops).handles b : Int)) ∧
    (∀ h b, alookup (run ops).handles h = some (some b) →
        sharesOf (run ops) h = (countRefs (run ops).handles b : Int)) := by
  have w := wf_run ops
  refine ⟨w.counts, ?_⟩
  intro h b hl
  have hbmem := w.noDangle h b hl
  obtain ⟨pt, hpt⟩ : ∃ pt, alookup (run ops).blocks b = some pt := by
    have hs := alookup_isSome_iff.mpr hbmem
    cases hv : alookup (run ops).blocks b with
    | none => rw [hv] at hs; simp at hs
    | some pt => exact ⟨pt, rfl⟩
  unfold sharesOf
  simp only [hl, hpt]
  exact w.counts b pt hpt

/-- Witness for C1: a concrete trace (construct then copy) where the block's
stored count and `shares()` on a live handle both equal the two live
handles. -/
theorem C1_refcount_invariant_witness :
    ((⟨2, 5, RelFun.defaultRel⟩ : PointerT)).refs
        = (countRefs (run [Op.ctorPtr 5, Op.ctorCopy 0]).handles 0 : Int) ∧
    sharesOf (run [Op.ctorPtr 5, Op.ctorCopy 0]) 1
        = (countRefs (run [Op.ctorPtr 5, Op.ctorCopy 0]).handles 0 : Int) :=
  ⟨(C1_refcount_invariant [Op.ctorPtr 5, Op.ctorCopy 0]).1 0
      ⟨2, 5, RelFun.defaultRel⟩ (by decide),
   (C1_refcount_invariant [Op.ctorPtr 5, Op.ctorCopy 0]).2 1 0 (by decide)⟩

/-- C2: constructing a handle on a pointer and then performing any sequence
of copy constructions and destructions never invokes the release function
more than once, and once no handle is left alive it has been invoked exactly
once — on the original pointer, through the default release function,
whatever the order of destruction was. -/
theorem C2_release_exactly_once (p : Nat) (ops : List Op)
    (hops : ∀ op ∈ ops, isCopyOrDtor op = true) :
    ((run (Op.ctorPtr p :: ops)).log = []
        ∨ (run (Op.ctorPtr p :: ops)).log = [(0, RelFun.defaultRel, p)]) ∧
    ((run (Op.ctorPtr p :: ops)).handles = []
        → (run (Op.ctorPtr p :: ops)).log = [(0, RelFun.defaultRel, p)]) := by
  have hrun : run (Op.ctorPtr p :: ops) = ops.foldl step (run [Op.ctorPtr p]) := rfl
  have inv := C2_fold (C2_start p) ops hops
  rw [hrun]
  rcases inv with hL | hD
  · obtain ⟨_, _, hLog, hPos, _, _, _⟩ := hL
    refine ⟨Or.inl hLog, ?_⟩
    intro hh
    exfalso
    rw [hh] at hPos
    simp [countRefs] at hPos
  · obtain ⟨_, _, hLog⟩ := hD
    exact ⟨Or.inr hLog, fun _ => hLog⟩

/-- Witness for C2: one handle on pointer 5, copied twice, all three handles
destroyed in a scrambled order; the log shows exactly one release
invocation. -/
theorem C2_release_exactly_once_witness :
    (run (Op.ctorPtr 5
        :: [Op.ctorCopy 0, Op.ctorCopy 1, Op.dtor 1, Op.dtor 0, Op.dtor 2])).log
      = [(0, RelFun.defaultRel, 5)] :=
  (C2_release_exactly_once 5
      [Op.ctorCopy 0, Op.ctorCopy 1, Op.dtor 1, Op.dtor 0, Op.dtor 2]
      (by decide)).2 (by decide)

/-- C3: the two-argument constructor `SharedT(class_t*, release_t)` as
written never stores the supplied custom release function: the control block
it allocates carries the default deleter, and driving the reference count to
zero invokes the default release function on the pointer, not the supplied
one.  (In the source the mem-initializer reads
`m_pointer(new pointer_t(ptr), destructor)`, so `destructor` never reaches
`pointer_t`; the claim describes the documented intent, which the code does
not implement.) -/
theorem C3_custom_destructor_dropped :
    alookup (run [Op.ctorPtrFun 7 (RelFun.custom 3)]).blocks 0
        = some ⟨1, 7, RelFun.defaultRel⟩ ∧
    (run [Op.ctorPtrFun 7 (RelFun.custom 3), Op.dtor 0]).log
        = [(0, RelFun.defaultRel, 7)] ∧
    ((run [Op.ctorPtrFun 7 (RelFun.custom 3), Op.dtor 0]).log.filter
        (fun e => e.2.1 == RelFun.custom 3)) = [] := by
  decide

/-- C5: re-assigning the pointer a handle already holds through
`assign(class_t*, release_t)` is a complete no-op: the state — and with it
`shares()`, the identity and deleter of the control block, and the release
log — is unchanged, and the newly supplied release function is never
stored. -/
theorem C5_assign_same_pointer_noop (s : SState) (h : Nat) (fn : RelFun) :
    assignPF s h (dataOf s h) fn = s ∧
    sharesOf (assignPF s h (dataOf s h) fn) h = sharesOf s h ∧
    (assignPF s h (dataOf s h) fn).log = s.log ∧
    alookup (assignPF s h (dataOf s h) fn).handles h = alookup s.handles h ∧
    (assignPF s h (dataOf s h) fn).blocks = s.blocks := by
  have heq : assignPF s h (dataOf s h) fn = s := by
    unfold assignPF
    cases alookup s.handles h <;> simp
  exact ⟨heq, by rw [heq], by rw [heq], by rw [heq], by rw [heq]⟩

/-- C6: self-assignment of a handle, both through `assign` and through
`operator=`, leaves the state — hence `shares()`, the control block and the
release log — completely unchanged, for every handle in every state,
including a refcount of 1. -/
theorem C6_self_assign_noop (s : SState) (h : Nat) :
    assignH s h h = s ∧
    opAssignH s h h = s ∧
    sharesOf (assignH s h h) h = sharesOf s h ∧
    (assignH s h h).log = s.log := by
  have heq : assignH s h h = s := by
    unfold assignH
    cases alookup s.handles h <;> simp
  exact ⟨heq, heq, by rw [heq], by rw [heq]⟩

/-- C9: `SharedT(NULL)` allocates a control block: the handle reports
`data() == NULL`, converts to `false`, yet `shares()` is 1, unlike a
default-constructed handle whose `shares()` is 0; destroying the last such
handle invokes the default release function with `NULL`, which deletes
nothing. -/
theorem C9_null_pointer_block :
    dataOf (run [Op.ctorDefault, Op.ctorPtr 0]) 1 = 0 ∧
    toBool (run [Op.ctorDefault, Op.ctorPtr 0]) 1 = false ∧
    sharesOf (run [Op.ctorDefault, Op.ctorPtr 0]) 1 = 1 ∧
    sharesOf (run [Op.ctorDefault, Op.ctorPtr 0]) 0 = 0 ∧
    (run [Op.ctorDefault, Op.ctorPtr 0, Op.dtor 1]).log
        = [(0, RelFun.defaultRel, 0)] ∧
    (run [Op.ctorDefault, Op.ctorPtr 0, Op.dtor 1]).deleted = [] := by
  decide

/-! ### The functor and event templates

`ss::FunctorT` (src/source/sstlfunc.hpp) is the type-erased pair of a host
object pointer `m_host` and a static trampoline pointer `m_call`; both are
modelled as numeric identities.  `ss::EventT` (src/source/sstleven.hpp)
keeps a `std::list` of such delegates; its member loops are embedded over
`List FunctorT`. -/

/-- Embedding of `ss::FunctorT`: the captured `(m_host, m_call)` pair. -/
structure FunctorT where
  m_host : Nat
  m_call : Nat
deriving DecidableEq, Repr

/-- `FunctorT::isHost`: compares the stored host pointer with `ptr`. -/
def FunctorT.isHost (f : FunctorT) (ptr : Nat) : Bool :=
  f.m_host == ptr

/-- `FunctorT::operator==`: identity comparison of host and trampoline. -/
def FunctorT.eqOp (a b : FunctorT) : Bool :=
  a.m_host == b.m_host && a.m_call == b.m_call

/-- `FunctorT::operator==` holds exactly when the two delegates carry the
same (host, trampoline) pair. -/
theorem FunctorT.eqOp_iff (a b : FunctorT) : FunctorT.eqOp a b = true ↔ a = b := by
  cases a
  cases b
  simp [FunctorT.eqOp, FunctorT.mk.injEq]

/-- `EventT::unbound(target)`: the erase-or-advance loop over the delegate
list, removing each delegate whose `isHost(target)` holds. -/
def unbound : List FunctorT → Nat → List FunctorT
  | [], _ => []
  | d :: rest, t => if d.isHost t then unbound rest t else d :: unbound rest t

/-- `EventT::remove(const Delegate &)`: the erase-or-advance loop removing
each delegate equal (by `operator==`) to `callback`. -/
def removeDelegate : List FunctorT → FunctorT → List FunctorT
  | [], _ => []
  | x :: rest, cb =>
      if FunctorT.eqOp x cb then removeDelegate rest cb
      else x :: removeDelegate rest cb

/-- `EventT::add(const Delegate &)` as written in the source: the scan loop
compares `(*it) == callback` but never advances `it`, so on a non-empty list
whose first delegate differs from `callback` it never terminates (modelled
as `none`); on an empty list the loop is skipped and `callback` is appended;
when the first delegate already equals `callback` the function returns with
the list unchanged. -/
def addAsWritten (l : List FunctorT) (cb : FunctorT) : Option (List FunctorT) :=
  match l with
  | [] => some (l ++ [cb])
  | d :: _ => if FunctorT.eqOp d cb then some l else none

/-- `EventT::operator<<`: unconditional `push_back`, no deduplication. -/
def opShl (l : List FunctorT) (d : FunctorT) : List FunctorT :=
  l ++ [d]

/-- `EventT::bind`: builds a delegate from the host and trampoline and
appends it unconditionally. -/
def bindDelegate (l : List FunctorT) (host call : Nat) : List FunctorT :=
  l ++ [⟨host, call⟩]

/-- C7: `unbound(target)` removes exactly the delegates whose captured host
pointer equals `target` — regardless of which member function (trampoline)
was bound — keeping the other delegates in their original relative order
(the result is the order-preserving filter of the list), and no delegate
bound to `target` survives. -/
theorem C7_unbound_removes_host (l : List FunctorT) (t : Nat) :
    unbound l t = l.filter (fun d => ! d.isHost t) ∧
    (∀ d ∈ l, d.m_host = t → d ∉ unbound l t) := by
  have hfil : unbound l t = l.filter (fun d => ! d.isHost t) := by
    induction l with
    | nil => rfl
    | cons d rest ih =>
        by_cases hd : d.isHost t <;> simp [unbound, List.filter_cons, hd, ih]
  refine ⟨hfil, ?_⟩
  intro d hd hhost hmem
  rw [hfil] at hmem
  have := List.of_mem_filter hmem
  simp [FunctorT.isHost, hhost] at this

/-- Witness for C7: the delegate with host 1 is removed by `unbound 1` from
a two-delegate list. -/
theorem C7_unbound_removes_host_witness :
    (⟨1, 2⟩ : FunctorT) ∉ unbound [⟨1, 2⟩, ⟨3, 4⟩] 1 :=
  (C7_unbound_removes_host [⟨1, 2⟩, ⟨3, 4⟩] 1).2 ⟨1, 2⟩ (by decide) rfl

/-- C10: `remove(callback)` erases exactly the delegates whose
(host, trampoline) pair equals the callback's — the result is the
order-preserving filter of the list, so the loop terminates and the
remaining delegates keep their relative order —, every surviving delegate
differs from the callback, and a list with no matching delegate is returned
unchanged. -/
theorem C10_remove_filters (l : List FunctorT) (cb : FunctorT) :
    removeDelegate l cb = l.filter (fun x => ! FunctorT.eqOp x cb) ∧
    (∀ x ∈ removeDelegate l cb, FunctorT.eqOp x cb = false) ∧
    ((∀ x ∈ l, FunctorT.eqOp x cb = false) → removeDelegate l cb = l) := by
  have hfil : removeDelegate l cb = l.filter (fun x => ! FunctorT.eqOp x cb) := by
    induction l with
    | nil => rfl
    | cons x rest ih =>
        by_cases hx : FunctorT.eqOp x cb
            <;> simp [removeDelegate, List.filter_cons, hx, ih]
  refine ⟨hfil, ?_, ?_⟩
  · intro x hx
    rw [hfil] at hx
    have := List.of_mem_filter hx
    simpa using this
  · intro hall
    rw [hfil]
    apply List.filter_eq_self.mpr
    intro a ha
    simp [hall a ha]

/-- Witness for C10: removing a delegate not in the list leaves the list
unchanged, and a surviving delegate never equals the removed callback. -/
theorem C10_remove_filters_witness :
    FunctorT.eqOp ⟨3, 4⟩ ⟨1, 2⟩ = false ∧
    removeDelegate [⟨3, 4⟩] ⟨1, 2⟩ = [⟨3, 4⟩] :=
  ⟨((C10_remove_filters [⟨3, 4⟩, ⟨1, 2⟩] ⟨1, 2⟩).2).1 ⟨3, 4⟩ (by decide),
   ((C10_remove_filters [⟨3, 4⟩] ⟨1, 2⟩).2).2 (by decide)⟩

/-- C4: the deduplicating `add(const Delegate &)` loop never advances its
iterator, so instead of scanning the whole list and then appending, it fails
to terminate on any event whose first delegate differs from the argument:
on the one-delegate list `[(host 1, call 1)]`, adding `(host 2, call 1)`
diverges and the claimed FIFO append never happens. The append happens only
on an empty list; a first-position duplicate returns the list unchanged; and
`operator<<` appends without any deduplication. -/
theorem C4_add_loop_never_advances :
    addAsWritten [⟨1, 1⟩] ⟨2, 1⟩ = none ∧
    addAsWritten [] ⟨2, 1⟩ = some [⟨2, 1⟩] ∧
    addAsWritten [⟨1, 1⟩] ⟨1, 1⟩ = some [⟨1, 1⟩] ∧
    opShl [⟨1, 1⟩] ⟨1, 1⟩ = [⟨1, 1⟩, ⟨1, 1⟩] := by
  decide

end SStl
